import Mathlib

/-!
Verification development for `scripts/bandai_test/bvh_skeleton_probe.py`.

The Python script is embedded shallowly:
* lines are `String`s; the regular expressions of the script are modelled by
  deterministic scanners (all the character classes involved are disjoint from
  the separators that follow them, so greedy scanning is exactly the regex
  behaviour, and `re.match`/`re.search` anchor only at the start / at the first
  matching position);
* Python `float(...)` is modelled exactly over the rationals by `pyFloat?`
  (values are `Frac`, a normalized numerator/denominator pair, so that all
  arithmetic is kernel-computable), returning `none` exactly where `float`
  raises `ValueError`; code paths on which the script would raise are
  modelled with `Except Unit`;
* Python dicts are association lists updated in place (`alSet`), matching
  insertion order and in-place overwrite of CPython dicts.
-/

instance exceptDecEq {ε α : Type} [DecidableEq ε] [DecidableEq α] :
    DecidableEq (Except ε α) := fun x y =>
  match x, y with
  | .error a, .error b => decidable_of_iff (a = b) (by simp)
  | .error _, .ok _ => .isFalse (by simp)
  | .ok _, .error _ => .isFalse (by simp)
  | .ok a, .ok b => decidable_of_iff (a = b) (by simp)

/-- Python's `\s` / `str.strip` whitespace (ASCII range, the only characters
relevant for text lines). -/
def isPySpace (c : Char) : Bool :=
  c = ' ' || c = '\t' || c = '\n' || c = '\r' || c = '\x0b' || c = '\x0c'

/-- Character class `[A-Za-z0-9_\-\.]` of the joint-name group in `re_joint`. -/
def isNameChar (c : Char) : Bool :=
  c.isAlpha || c.isDigit || c = '_' || c = '-' || c = '.'

/-- Character class `[0-9\.\-eE]` of the numeric groups in `re_offset`. -/
def isOffsetNumChar (c : Char) : Bool :=
  c.isDigit || c = '.' || c = '-' || c = 'e' || c = 'E'

/-- Character class `[0-9\.eE+-]` of the numeric group in the `Frame Time` regex. -/
def isFrameNumChar (c : Char) : Bool :=
  c.isDigit || c = '.' || c = 'e' || c = 'E' || c = '+' || c = '-'

/-- Pattern `\s+` followed by a captured nonempty run of characters satisfying `p`
(the two classes are disjoint, so greedy scanning equals the regex). Returns
the captured run and the remainder. -/
def spacesThenRun (p : Char → Bool) (cs : List Char) : Option (List Char × List Char) :=
  if (cs.takeWhile isPySpace).isEmpty then none
  else
    let rest := cs.dropWhile isPySpace
    let run := rest.takeWhile p
    if run.isEmpty then none else some (run, rest.dropWhile p)

/-- Model of `re_joint.match(ln)` for `^\s*(ROOT|JOINT)\s+([A-Za-z0-9_\-\.]+)`:
returns the two captured groups (declaration keyword, joint name). -/
def reJointMatch (ln : String) : Option (String × String) :=
  let cs := ln.toList.dropWhile isPySpace
  if "ROOT".toList.isPrefixOf cs then
    (spacesThenRun isNameChar (cs.drop 4)).map (fun r => ("ROOT", String.mk r.1))
  else if "JOINT".toList.isPrefixOf cs then
    (spacesThenRun isNameChar (cs.drop 5)).map (fun r => ("JOINT", String.mk r.1))
  else none

/-- Model of `re_offset.match(ln)` for
`^\s*OFFSET\s+([0-9\.\-eE]+)\s+([0-9\.\-eE]+)\s+([0-9\.\-eE]+)`:
returns the three captured groups as strings. -/
def reOffsetMatch (ln : String) : Option (String × String × String) :=
  let cs := ln.toList.dropWhile isPySpace
  if "OFFSET".toList.isPrefixOf cs then
    match spacesThenRun isOffsetNumChar (cs.drop 6) with
    | none => none
    | some (g1, r1) =>
      match spacesThenRun isOffsetNumChar r1 with
      | none => none
      | some (g2, r2) =>
        match spacesThenRun isOffsetNumChar r2 with
        | none => none
        | some (g3, _) => some (String.mk g1, String.mk g2, String.mk g3)
  else none

/-- Model of `re_end.match(ln)` for `^\s*End Site`. -/
def reEndMatch (ln : String) : Bool :=
  "End Site".toList.isPrefixOf (ln.toList.dropWhile isPySpace)

/-- Python `c in ln` for a single character `c`. -/
def containsChar (ln : String) (c : Char) : Bool :=
  ln.toList.contains c

/-- Python `ln.strip()`. -/
def pyStrip (ln : String) : List Char :=
  ((ln.toList.dropWhile isPySpace).reverse.dropWhile isPySpace).reverse

/-- Python `ln.strip().startswith(lit)`. -/
def stripStartsWith (ln lit : String) : Bool :=
  lit.toList.isPrefixOf (pyStrip ln)

/-- Python `pat in hay` for strings (substring test). -/
def strContains (hay pat : String) : Bool :=
  (List.range (hay.toList.length + 1)).any (fun i => pat.toList.isPrefixOf (hay.toList.drop i))

/-- Python `s.lower()` (ASCII names only in this program). -/
def pyLower (s : String) : String :=
  String.mk (s.toList.map Char.toLower)

/-- Value of a digit run. -/
def pfDigits (cs : List Char) : Nat :=
  cs.foldl (fun a c => a * 10 + (c.toNat - 48)) 0

/-- An exact rational value (the model of a Python float): numerator over a
positive denominator, always produced in lowest terms through `fmk`, so
structural equality is equality of the represented rationals.  `Rat` itself is
avoided because its kernel reduction is unavailable for the arithmetic used
here. -/
structure Frac where
  num : ℤ
  den : ℕ
deriving DecidableEq

/-- Build a `Frac` in lowest terms with positive denominator from a fraction
of integers (a nonzero denominator is always supplied in this development). -/
def fmk (n d : ℤ) : Frac :=
  if d = 0 then ⟨0, 1⟩
  else
    let n1 : ℤ := if d < 0 then -n else n
    let dn : ℕ := d.natAbs
    let g : ℕ := n1.gcd (dn : ℤ)
    ⟨n1 / (g : ℤ), dn / g⟩

def fInt (n : ℤ) : Frac := ⟨n, 1⟩

def fmul (a b : Frac) : Frac := fmk (a.num * b.num) ((a.den : ℤ) * (b.den : ℤ))

def fdiv (a b : Frac) : Frac := fmk (a.num * (b.den : ℤ)) ((a.den : ℤ) * b.num)

/-- Value `10 ^ e` as a `Frac`, for an integer exponent. -/
def fpow10 (e : ℤ) : Frac :=
  if 0 ≤ e then ⟨(10 : ℤ) ^ e.toNat, 1⟩ else ⟨1, 10 ^ (-e).toNat⟩

/-- Test `q > 0` (denominators are positive by construction). -/
def fpos (q : Frac) : Bool := 0 < q.num

/-- Exponent part of a Python float literal: either the string ends, or
`e`/`E`, an optional sign and a nonempty digit run must consume the rest. -/
def pfExpPart (sgn : ℤ) (mant : Frac) (cs : List Char) : Option Frac :=
  match cs with
  | [] => some (fmul (fInt sgn) mant)
  | c :: rest =>
    if c = 'e' ∨ c = 'E' then
      let esr : ℤ × List Char :=
        match rest with
        | '+' :: r => (1, r)
        | '-' :: r => (-1, r)
        | r => (1, r)
      let ed := esr.2.takeWhile Char.isDigit
      let r2 := esr.2.dropWhile Char.isDigit
      if ed.isEmpty then none
      else if r2.isEmpty then
        some (fmul (fmul (fInt sgn) mant) (fpow10 (esr.1 * (pfDigits ed : ℤ))))
      else none
    else none

/-- Python `float(s)` on the strings reachable from the script's character
classes (no `inf`/`nan`/underscores are expressible in them):
`[+-]? ( digits [. digits?] | . digits ) ( [eE] [+-]? digits )?`, consuming
the whole string; the value is the exact decimal rational.
`none` models `float` raising `ValueError`. -/
def pyFloat? (s : String) : Option Frac :=
  let sgr : ℤ × List Char :=
    match s.toList with
    | '+' :: r => (1, r)
    | '-' :: r => (-1, r)
    | r => (1, r)
  let ip := sgr.2.takeWhile Char.isDigit
  let cs2 := sgr.2.dropWhile Char.isDigit
  let fpr : List Char × List Char :=
    match cs2 with
    | '.' :: r => (r.takeWhile Char.isDigit, r.dropWhile Char.isDigit)
    | r => ([], r)
  if ip.isEmpty ∧ fpr.1.isEmpty then none
  else
    pfExpPart sgr.1
      (fmk ((pfDigits ip : ℤ) * 10 ^ fpr.1.length + (pfDigits fpr.1 : ℤ))
        ((10 : ℤ) ^ fpr.1.length))
      fpr.2

/-- Python `round` on a rational: nearest integer, ties to even.  With
`f = ⌊q⌋` and remainder `r = q - f`, compare `r` with `1/2` by comparing
`2 * (num - f * den)` with `den` (the denominator is positive). -/
def pyRound (q : Frac) : ℤ :=
  let f : ℤ := q.num.fdiv (q.den : ℤ)
  let r2 : ℤ := 2 * (q.num - f * (q.den : ℤ))
  if r2 < (q.den : ℤ) then f
  else if (q.den : ℤ) < r2 then f + 1
  else if f % 2 = 0 then f else f + 1

/-- Association-list lookup: Python `d[k]` / `d.get(k)`. -/
def alGet {α : Type} : List (String × α) → String → Option α
  | [], _ => none
  | e :: rest, k => if e.1 = k then some e.2 else alGet rest k

/-- Association-list update: Python `d[k] = v` (overwrite in place, else
append; CPython dicts keep insertion order). -/
def alSet {α : Type} : List (String × α) → String → α → List (String × α)
  | [], k, v => [(k, v)]
  | e :: rest, k, v => if e.1 = k then (k, v) :: rest else e :: alSet rest k v

/-- Python `k in d` for a dict. -/
def alHasKey {α : Type} (m : List (String × α)) (k : String) : Bool :=
  (alGet m k).isSome

/-- Model of `children[p].append(c)` on a `defaultdict(list)`. -/
def childAppend : List (String × List String) → String → String → List (String × List String)
  | [], p, c => [(p, [c])]
  | e :: rest, p, c => if e.1 = p then (e.1, e.2 ++ [c]) :: rest else e :: childAppend rest p c

/-- The mutable state of `parse_hierarchy`'s loop. The Lean `stack` keeps its
top at the head (Python appends/pops at the end of its list). -/
structure ParseState where
  children : List (String × List String)
  offsets : List (String × (Frac × Frac × Frac))
  order : List String
  stack : List String
  current : Option String
  root_name : Option String
deriving DecidableEq

def initState : ParseState := ⟨[], [], [], [], none, none⟩

/-- One iteration of the `for ln in header_lines` loop of `parse_hierarchy`,
branch for branch.  `.error ()` is the `ValueError` that
`float(mo.group(i))` raises on a matched but malformed numeric field. -/
def processLine (st : ParseState) (ln : String) : Except Unit ParseState :=
  match reJointMatch ln with
  | some tn =>
      let st :=
        match st.current with
        | some cur => { st with children := childAppend st.children cur tn.2 }
        | none => { st with root_name := some tn.2 }
      .ok { st with order := st.order ++ [tn.2], stack := tn.2 :: st.stack, current := some tn.2 }
  | none =>
    if reEndMatch ln then .ok st
    else if containsChar ln '{' then .ok st
    else if containsChar ln '}' then
      .ok (match st.stack with
        | _ :: rest => { st with stack := rest, current := rest.head? }
        | [] => st)
    else
      match reOffsetMatch ln, st.current with
      | some g, some cur =>
        match pyFloat? g.1, pyFloat? g.2.1, pyFloat? g.2.2 with
        | some x, some y, some z => .ok { st with offsets := alSet st.offsets cur (x, y, z) }
        | _, _, _ => .error ()
      | _, _ => .ok st

/-- The loop of `parse_hierarchy` over the header lines. -/
def runLines : ParseState → List String → Except Unit ParseState
  | st, [] => .ok st
  | st, ln :: rest =>
    match processLine st ln with
    | .ok st1 => runLines st1 rest
    | .error e => .error e

/-- Model of `parse_hierarchy(header_lines)`: returns
`(root_name, children, offsets, order)`. -/
def parse_hierarchy (header_lines : List String) :
    Except Unit (Option String × List (String × List String) ×
      List (String × (Frac × Frac × Frac)) × List String) :=
  (runLines initState header_lines).map (fun st => (st.root_name, st.children, st.offsets, st.order))

instance parseResultDecEq :
    DecidableEq (Option String × List (String × List String) ×
      List (String × (Frac × Frac × Frac)) × List String) :=
  have h1 : DecidableEq (List (String × (Frac × Frac × Frac)) × List String) := inferInstance
  have h2 : DecidableEq (List (String × List String) ×
      (List (String × (Frac × Frac × Frac)) × List String)) := @instDecidableEqProd _ _ _ h1
  @instDecidableEqProd _ _ _ h2

/-- State of the line-routing loop of `read_bvh_header`. -/
structure RouteState where
  in_hier : Bool
  in_motion : Bool
  header_lines : List String
  motion_lines : List String
deriving DecidableEq

/-- One iteration of the routing loop of `read_bvh_header`. -/
def routeLine (rs : RouteState) (ln : String) : RouteState :=
  if stripStartsWith ln "HIERARCHY" then { rs with in_hier := true }
  else
    let rs :=
      if stripStartsWith ln "MOTION" then { rs with in_motion := true, in_hier := false }
      else rs
    if rs.in_motion then { rs with motion_lines := rs.motion_lines ++ [ln] }
    else if rs.in_hier then { rs with header_lines := rs.header_lines ++ [ln] }
    else rs

def splitLines (lines : List String) : RouteState :=
  lines.foldl routeLine ⟨false, false, [], []⟩

/-- Model of `re.search(r"Frame Time:\s*([0-9\.eE+-]+)", ln)` tried at one start
position: the literal, then `\s*`, then a nonempty greedy class run. -/
def frameTimeAt (cs : List Char) : Option String :=
  if "Frame Time:".toList.isPrefixOf cs then
    let r := (cs.drop 11).dropWhile isPySpace
    let run := r.takeWhile isFrameNumChar
    if run.isEmpty then none else some (String.mk run)
  else none

/-- Model of `re.search`: first start position (left to right) where the pattern
matches. -/
def ftSearch : List Char → Option String
  | [] => none
  | c :: rest =>
    match frameTimeAt (c :: rest) with
    | some s => some s
    | none => ftSearch rest

/-- The `for ln in motion_lines` fps loop of `read_bvh_header`: the first
matching line decides (`break`), a positive duration gives `round(1/dt)`,
`float` raising is `.error ()`. -/
def fpsOf : List String → Except Unit (Option ℤ)
  | [] => .ok none
  | ln :: rest =>
    match ftSearch ln.toList with
    | some s =>
      match pyFloat? s with
      | some dt => .ok (if fpos dt then some (pyRound (fdiv (fInt 1) dt)) else none)
      | none => .error ()
    | none => fpsOf rest

/-- Model of `read_bvh_header` (the file is given as its list of lines): routes lines
to the header and motion buffers, then extracts fps from the motion buffer. -/
def read_bvh_header (lines : List String) : Except Unit (List String × Option ℤ) :=
  let rs := splitLines lines
  (fpsOf rs.motion_lines).map (fun fps => (rs.header_lines, fps))

/-- The canonical GMR joint-name list of the script. -/
def CANONICAL_GMR_SET : List String :=
  ["Hips", "Spine", "Spine1", "Spine2", "Neck", "Head",
   "LeftShoulder", "LeftArm", "LeftForeArm", "LeftHand",
   "RightShoulder", "RightArm", "RightForeArm", "RightHand",
   "LeftUpLeg", "LeftLeg", "LeftFoot", "LeftToe",
   "RightUpLeg", "RightLeg", "RightFoot", "RightToe"]

def LEFT_PREFIXES : List String := ["Left", "L"]
def RIGHT_PREFIXES : List String := ["Right", "R"]
def TOE_HINTS : List String := ["ToeBase", "Toe", "toe", "toes"]

/-- Model of `is_left(name)`. -/
def is_left (name : String) : Bool :=
  LEFT_PREFIXES.any (fun p => p.toList.isPrefixOf name.toList)

/-- Model of `is_right(name)`. -/
def is_right (name : String) : Bool :=
  RIGHT_PREFIXES.any (fun p => p.toList.isPrefixOf name.toList)

/-- Identity pass of `suggest_map`: names already canonical map to themselves. -/
def pass1 (order : List String) : List (String × String) :=
  order.foldl (fun m n => if n ∈ CANONICAL_GMR_SET then alSet m n n else m) []

/-- The `variants` table of `suggest_map`. -/
def variants : List (String × String) :=
  [("LeftToeBase", "LeftToe"),
   ("RightToeBase", "RightToe"),
   ("LeftUpLegRoll", "LeftUpLeg"),
   ("RightUpLegRoll", "RightUpLeg"),
   ("LeftArmRoll", "LeftArm"),
   ("RightArmRoll", "RightArm"),
   ("LeftForeArmRoll", "LeftForeArm"),
   ("RightForeArmRoll", "RightForeArm")]

/-- Known-variant pass of `suggest_map`. -/
def pass2 (order : List String) (m : List (String × String)) : List (String × String) :=
  variants.foldl
    (fun m sd => if sd.1 ∈ order ∧ sd.2 ∈ CANONICAL_GMR_SET then alSet m sd.1 sd.2 else m) m

/-- Loop body of the clavicle/shoulder pass: the two `if` statements executed
for one name `n` (the guards test key membership of `"LeftShoulder"` /
`"RightShoulder"` in the evolving dict, exactly as the code does). -/
def clavStep (m : List (String × String)) (n : String) : List (String × String) :=
  let low := pyLower n
  let m :=
    if strContains low "clavicle" ∧ ¬ alHasKey m "LeftShoulder" ∧ is_left n then
      alSet m n "LeftShoulder"
    else m
  let m :=
    if strContains low "clavicle" ∧ ¬ alHasKey m "RightShoulder" ∧ is_right n then
      alSet m n "RightShoulder"
    else m
  m

/-- Clavicle/shoulder pass of `suggest_map`. -/
def pass3 (order : List String) (m : List (String × String)) : List (String × String) :=
  order.foldl clavStep m

/-- The `toes_left` list of `suggest_map`. -/
def toesLeft (order : List String) : List String :=
  order.filter (fun n => is_left n && TOE_HINTS.any (fun h => strContains n h))

/-- The `toes_right` list of `suggest_map`. -/
def toesRight (order : List String) : List String :=
  order.filter (fun n => is_right n && TOE_HINTS.any (fun h => strContains n h))

/-- Toe pass of `suggest_map`: last left/right toe candidate in traversal
order, guarded by key membership of `"LeftToe"` / `"RightToe"`. -/
def pass4 (order : List String) (m : List (String × String)) : List (String × String) :=
  let tl := toesLeft order
  let tr := toesRight order
  let m := if ¬ tl.isEmpty ∧ ¬ alHasKey m "LeftToe" then alSet m (tl.getLastD "") "LeftToe" else m
  let m := if ¬ tr.isEmpty ∧ ¬ alHasKey m "RightToe" then alSet m (tr.getLastD "") "RightToe" else m
  m

/-- Model of `suggest_map(order)`: the four passes applied in order to one dict. -/
def suggest_map (order : List String) : List (String × String) :=
  pass4 order (pass3 order (pass2 order (pass1 order)))

/-- Parent→child edge of the returned `children` dict. -/
def childEdge (ch : List (String × List String)) (p c : String) : Prop :=
  ∃ cs, (p, cs) ∈ ch ∧ c ∈ cs

/-- Number of times `c` occurs as a child anywhere in the `children` dict
(its number of parents, counted with multiplicity). -/
def countEdges : List (String × List String) → String → Nat
  | [], _ => 0
  | e :: rest, c => e.2.count c + countEdges rest c

/-- Holds when `p` occurs strictly before `c` in the list `l`. -/
def Before (l : List String) (p c : String) : Prop :=
  ∃ l1 l2 l3, l = l1 ++ p :: l2 ++ c :: l3

/-- Index of the first occurrence of `a` in `l`. -/
def rankIn : List String → String → Nat
  | [], _ => 0
  | x :: xs, a => if x = a then 0 else rankIn xs a + 1

/-- Loop invariant of `parse_hierarchy`: every stacked or current name has
already been recorded in `order`, every parent→child edge goes from an
earlier `order` entry to a strictly later one, and a name has at most as many
parents as it has `order` entries. -/
structure ParseInv (st : ParseState) : Prop where
  stack_sub : ∀ n ∈ st.stack, n ∈ st.order
  cur_sub : ∀ c, st.current = some c → c ∈ st.order
  edge_before : ∀ p cs, (p, cs) ∈ st.children → ∀ c ∈ cs, Before st.order p c
  edge_count : ∀ c, countEdges st.children c ≤ st.order.count c

/-- Depth-first pre-order of the tree described by a `children` dict,
worklist form with explicit fuel. -/
def preorderAux (ch : List (String × List String)) : Nat → List String → List String
  | 0, _ => []
  | _ + 1, [] => []
  | fuel + 1, n :: rest => n :: preorderAux ch fuel (((alGet ch n).getD []) ++ rest)

def preorderFuel (ch : List (String × List String)) (fuel : Nat) (root : String) : List String :=
  preorderAux ch fuel [root]

/-- On an empty worklist `preorderAux` returns the empty list, for every fuel. -/
theorem preorderAux_nil (ch : List (String × List String)) (fuel : Nat) :
    preorderAux ch fuel [] = [] := by
  cases fuel <;> rfl

/-- C1 (failing evaluation): on a well-formed two-leaf hierarchy whose leaves
carry `End Site` blocks, the parser returns root `"B"` and children `{R: [A]}`;
the returned `order` `["R", "A", "B"]` is not a depth-first pre-order of the
returned `(root_name, children)` tree (which traverses to just `["B"]`), even
though the joint count does match the three `ROOT`/`JOINT` lines. -/
theorem claim1_end_sites_break_preorder :
    parse_hierarchy ["ROOT R", "\x7b", "OFFSET 0 0 0",
        "JOINT A", "\x7b", "OFFSET 0 1 0", "End Site", "\x7b", "OFFSET 0 0 1", "\x7d", "\x7d",
        "JOINT B", "\x7b", "OFFSET 1 0 0", "End Site", "\x7b", "OFFSET 0 0 2", "\x7d", "\x7d", "\x7d"] =
      .ok (some "B", [("R", ["A"])],
        [("R", (⟨0, 1⟩, ⟨0, 1⟩, ⟨0, 1⟩)), ("A", (⟨0, 1⟩, ⟨0, 1⟩, ⟨1, 1⟩)),
          ("B", (⟨0, 1⟩, ⟨0, 1⟩, ⟨2, 1⟩))],
        ["R", "A", "B"]) ∧
    (∀ fuel, preorderFuel [("R", ["A"])] fuel "B" ≠ ["R", "A", "B"]) := by
  refine ⟨by decide, ?_⟩
  intro fuel
  cases fuel with
  | zero => simp [preorderFuel, preorderAux]
  | succ k => simp [preorderFuel, preorderAux, alGet, preorderAux_nil]

/-- C3 (failing evaluation): the closing brace of an `End Site` block pops the
enclosing joint: after `ROOT R { JOINT A {` the current joint is `A`, but after
additionally processing `End Site { OFFSET 0 0 0 }` the stack has dropped `A`
and the current joint is back to `R`; a sibling `JOINT B` declared next inside
`A`'s block is therefore attached to `R`, not to `A`. -/
theorem claim3_end_site_brace_pops_enclosing_joint :
    (runLines initState ["ROOT R", "\x7b", "JOINT A", "\x7b"]).map ParseState.current =
      .ok (some "A") ∧
    (runLines initState ["ROOT R", "\x7b", "JOINT A", "\x7b"]).map ParseState.stack =
      .ok ["A", "R"] ∧
    (runLines initState
        ["ROOT R", "\x7b", "JOINT A", "\x7b", "End Site", "\x7b", "OFFSET 0 0 0", "\x7d"]).map
      ParseState.current = .ok (some "R") ∧
    (runLines initState
        ["ROOT R", "\x7b", "JOINT A", "\x7b", "End Site", "\x7b", "OFFSET 0 0 0", "\x7d"]).map
      ParseState.stack = .ok ["R"] ∧
    parse_hierarchy ["ROOT R", "\x7b", "JOINT A", "\x7b", "End Site", "\x7b", "OFFSET 0 0 0", "\x7d",
        "JOINT B", "\x7d", "\x7d"] =
      .ok (some "R", [("R", ["A", "B"])], [("A", (⟨0, 1⟩, ⟨0, 1⟩, ⟨0, 1⟩))],
        ["R", "A", "B"]) := by
  decide

/-- C4 (failing evaluation): the `OFFSET` character class accepts a bare `-`,
so the pattern matches `OFFSET - 0 0` yet `float("-")` raises, and the raise
propagates out of `parse_hierarchy`; likewise the `Frame Time` group matches a
bare `-` and `read_bvh_header` raises instead of continuing. -/
theorem claim4_malformed_numeric_field_raises :
    reOffsetMatch "OFFSET - 0 0" = some ("-", "0", "0") ∧
    pyFloat? "-" = none ∧
    parse_hierarchy ["ROOT A", "\x7b", "OFFSET - 0 0"] = .error () ∧
    read_bvh_header ["HIERARCHY", "MOTION", "Frame Time: -"] = .error () := by
  decide

/-- C2 (counterexample): a header with a duplicated joint name makes the
parsed joint `"A"` its own parent, so the returned structure is not acyclic. -/
theorem claim2_counterexample_duplicate_name_cycle :
    parse_hierarchy ["ROOT A", "\x7b", "JOINT A"] =
      .ok (some "A", [("A", ["A"])], [], ["A", "A"]) ∧
    childEdge [("A", ["A"])] "A" "A" := by
  refine ⟨by decide, ⟨["A"], ?_, ?_⟩⟩ <;> simp

/-- C5 (counterexample): a header containing a `JOINT` but no `ROOT`
declaration does not yield an empty result: the joint regex accepts both
keywords, so `"X"` becomes the root and appears in `order`. -/
theorem claim5_counterexample_joint_without_root :
    (∀ ln ∈ ["JOINT X"], (reJointMatch ln).map Prod.fst ≠ some "ROOT") ∧
    parse_hierarchy ["JOINT X"] = .ok (some "X", [], [], ["X"]) := by
  decide

/-- C8 (counterexample): two left clavicle names both map to `LeftShoulder`
(the guard tests whether `"LeftShoulder"` is a key, not whether it is already
a target), so the final mapping has two sources with target `LeftShoulder`. -/
theorem claim8_counterexample_two_clavicles :
    suggest_map ["LClavicle1", "LClavicle2"] =
      [("LClavicle1", "LeftShoulder"), ("LClavicle2", "LeftShoulder")] ∧
    ((suggest_map ["LClavicle1", "LClavicle2"]).filter
        (fun p => p.2 = "LeftShoulder")).length = 2 := by
  decide

/-- C9 (counterexample): a left-lateral name containing both `clavicle` and a
toe hint is first assigned `LeftShoulder` by the clavicle pass, then the toe
pass overwrites the same key with `LeftToe`: the final mapping disagrees with
the value the key received when first assigned. -/
theorem claim9_counterexample_toe_overwrites_clavicle :
    alGet (pass3 ["LeftClavicleToe"] (pass2 ["LeftClavicleToe"] (pass1 ["LeftClavicleToe"])))
        "LeftClavicleToe" = some "LeftShoulder" ∧
    alGet (suggest_map ["LeftClavicleToe"]) "LeftClavicleToe" = some "LeftToe" := by
  decide

theorem alGet_alSet_same {α : Type} (m : List (String × α)) (k : String) (v : α) :
    alGet (alSet m k v) k = some v := by
  induction m with
  | nil => simp [alSet, alGet]
  | cons e rest ih =>
    by_cases h : e.1 = k
    · simp [alSet, alGet, h]
    · simp [alSet, alGet, h, ih]

theorem alGet_alSet_ne {α : Type} (m : List (String × α)) (k k' : String) (v : α)
    (h : k' ≠ k) : alGet (alSet m k v) k' = alGet m k' := by
  induction m with
  | nil => simp [alSet, alGet, Ne.symm h]
  | cons e rest ih =>
    by_cases he : e.1 = k
    · subst he
      simp [alSet, alGet, Ne.symm h]
    · simp [alSet, alGet, he, ih]

/-- A line on which no branch of the loop body fires (no joint match, no
`End Site`, no brace, and the current joint is `none` so the offset branch is
inert) leaves the parser state unchanged. -/
theorem runLines_no_joint (lines : List String)
    (h : ∀ ln ∈ lines, reJointMatch ln = none) :
    runLines initState lines = .ok initState := by
  induction lines with
  | nil => rfl
  | cons ln rest ih =>
    have hln : reJointMatch ln = none := h ln (by simp)
    have hp : processLine initState ln = .ok initState := by
      unfold processLine
      rw [hln]
      cases hoe : reOffsetMatch ln <;> simp [initState, hoe]
    simp only [runLines, hp]
    exact ih (fun l hl => h l (by simp [hl]))

/-- C5 (amended): for every header in which no line matches the joint pattern
(neither `ROOT` nor `JOINT`), `parse_hierarchy` returns an absent root and
empty children, offsets and order, and does not raise. -/
theorem claim5_no_joint_decl_empty_result (lines : List String)
    (h : ∀ ln ∈ lines, reJointMatch ln = none) :
    parse_hierarchy lines = .ok (none, [], [], []) := by
  unfold parse_hierarchy
  rw [runLines_no_joint lines h]
  rfl

/-- C5 witness: a concrete header with braces, an `End Site` and a malformed
`OFFSET` line but no joint declaration parses to the empty result. -/
theorem claim5_witness :
    parse_hierarchy ["\x7b", "OFFSET - 0 0", "End Site", "\x7d"] = .ok (none, [], [], []) :=
  claim5_no_joint_decl_empty_result _ (by decide)

theorem fpsOf_none (motion : List String) (h : ∀ ln ∈ motion, ftSearch ln.toList = none) :
    fpsOf motion = .ok none := by
  induction motion with
  | nil => rfl
  | cons ln rest ih =>
    have h1 := h ln (by simp)
    simp only [fpsOf, h1]
    exact ih (fun l hl => h l (by simp [hl]))

theorem fpsOf_first (pre : List String) (ln : String) (post : List String) (s : String)
    (dt : Frac) (hpre : ∀ l ∈ pre, ftSearch l.toList = none)
    (hln : ftSearch ln.toList = some s) (hdt : pyFloat? s = some dt) :
    fpsOf (pre ++ ln :: post) =
      .ok (if fpos dt then some (pyRound (fdiv (fInt 1) dt)) else none) := by
  induction pre with
  | nil => simp only [List.nil_append, fpsOf, hln, hdt]
  | cons p pre ih =>
    have h1 := hpre p (by simp)
    simp only [List.cons_append, fpsOf, h1]
    exact ih (fun l hl => hpre l (by simp [hl]))

/-- C6: the frame rate comes from the first motion line on which the
`Frame Time` pattern matches and from no other line (whatever follows is
ignored); a positive parsed duration `dt` gives `fps = round(1/dt)`, a
non-positive one gives an absent fps, and if no line matches, fps is absent;
in particular `0.0083333` yields `120` and `0.0333333` yields `30`. -/
theorem claim6_frame_rate_first_match (motion : List String) :
    ((∀ ln ∈ motion, ftSearch ln.toList = none) → fpsOf motion = .ok none) ∧
    (∀ pre ln post s dt, motion = pre ++ ln :: post →
      (∀ l ∈ pre, ftSearch l.toList = none) →
      ftSearch ln.toList = some s → pyFloat? s = some dt →
      fpsOf motion = .ok (if fpos dt then some (pyRound (fdiv (fInt 1) dt)) else none)) ∧
    fpsOf ["Frame Time: 0.0083333"] = .ok (some 120) ∧
    fpsOf ["Frame Time: 0.0333333"] = .ok (some 30) := by
  refine ⟨fun h => fpsOf_none motion h, ?_, by decide, by decide⟩
  intro pre ln post s dt hm hpre hln hdt
  rw [hm]
  exact fpsOf_first pre ln post s dt hpre hln hdt

/-- C6 witness: on a concrete motion block, a non-matching first line is
skipped, the first matching line fixes fps = 120, and a later `Frame Time`
line is ignored. -/
theorem claim6_witness :
    fpsOf ["junk", "Frame Time: 0.0083333", "Frame Time: 99"] = .ok (some 120) := by
  have h := (claim6_frame_rate_first_match
      ["junk", "Frame Time: 0.0083333", "Frame Time: 99"]).2.1
      ["junk"] "Frame Time: 0.0083333" ["Frame Time: 99"] "0.0083333" ⟨83333, 10000000⟩
      rfl (by decide) (by decide) (by decide)
  exact h.trans (by decide)

/-- C10: with `A` the current joint, a line carrying `A`'s own `OFFSET`
followed by an `End Site` block with its own `OFFSET` line records the
End Site values against `A`, overwriting `A`'s own offset (the `End Site`
line leaves the current joint unchanged), and this is what the offsets table
ends up holding after the block's closing brace. -/
theorem claim10_end_site_offset_overwrites (st : ParseState) (A lnA lnE : String)
    (sa1 sa2 sa3 se1 se2 se3 : String) (a1 a2 a3 e1 e2 e3 : Frac)
    (hcur : st.current = some A)
    (hAj : reJointMatch lnA = none) (hAe : reEndMatch lnA = false)
    (hAo : containsChar lnA '{' = false) (hAc : containsChar lnA '}' = false)
    (hAm : reOffsetMatch lnA = some (sa1, sa2, sa3))
    (ha1 : pyFloat? sa1 = some a1) (ha2 : pyFloat? sa2 = some a2) (ha3 : pyFloat? sa3 = some a3)
    (hEj : reJointMatch lnE = none) (hEe : reEndMatch lnE = false)
    (hEo : containsChar lnE '{' = false) (hEc : containsChar lnE '}' = false)
    (hEm : reOffsetMatch lnE = some (se1, se2, se3))
    (he1 : pyFloat? se1 = some e1) (he2 : pyFloat? se2 = some e2) (he3 : pyFloat? se3 = some e3) :
    ∃ st1 st2,
      runLines st [lnA] = .ok st1 ∧ alGet st1.offsets A = some (a1, a2, a3) ∧
      st1.current = some A ∧
      runLines st [lnA, "End Site", "\x7b", lnE, "\x7d"] = .ok st2 ∧
      alGet st2.offsets A = some (e1, e2, e3) := by
  have hpA : processLine st lnA = .ok { st with offsets := alSet st.offsets A (a1, a2, a3) } := by
    unfold processLine
    rw [hAj, hcur]
    simp [hAe, hAo, hAc, hAm, ha1, ha2, ha3]
  set stA : ParseState := { st with offsets := alSet st.offsets A (a1, a2, a3) } with hstA
  have hcurA : stA.current = some A := hcur
  have hpES : processLine stA "End Site" = .ok stA := by
    unfold processLine
    rw [(by decide : reJointMatch "End Site" = none)]
    simp [(by decide : reEndMatch "End Site" = true)]
  have hpOB : processLine stA "\x7b" = .ok stA := by
    unfold processLine
    rw [(by decide : reJointMatch "\x7b" = none)]
    simp [(by decide : reEndMatch "\x7b" = false), (by decide : containsChar "\x7b" '{' = true)]
  have hpE : processLine stA lnE =
      .ok { stA with offsets := alSet stA.offsets A (e1, e2, e3) } := by
    unfold processLine
    rw [hEj, hcurA]
    simp [hEe, hEo, hEc, hEm, he1, he2, he3]
  set stB : ParseState := { stA with offsets := alSet stA.offsets A (e1, e2, e3) } with hstB
  have hpCB : ∃ st3, processLine stB "\x7d" = .ok st3 ∧ st3.offsets = stB.offsets := by
    unfold processLine
    rw [(by decide : reJointMatch "\x7d" = none)]
    simp only [(by decide : reEndMatch "\x7d" = false),
      (by decide : containsChar "\x7d" '{' = false),
      (by decide : containsChar "\x7d" '}' = true)]
    cases hs : stB.stack with
    | nil => exact ⟨stB, by simp [hs], rfl⟩
    | cons x rest => exact ⟨{ stB with stack := rest, current := rest.head? }, by simp [hs], rfl⟩
  obtain ⟨st3, hp3, hoff3⟩ := hpCB
  refine ⟨stA, st3, ?_, ?_, hcurA, ?_, ?_⟩
  · simp only [runLines, hpA]
  · simp only [hstA, alGet_alSet_same]
  · simp only [runLines, hpA, hpES, hpOB, hpE, hp3]
  · rw [hoff3]
    simp only [hstB, alGet_alSet_same]

/-- C10 witness: a concrete state with current joint `"A"`, own offset
`(1, 2, 3)` and End Site offset `(4, 5, 6)`. -/
theorem claim10_witness :
    ∃ st1 st2,
      runLines ⟨[], [], ["A"], ["A"], some "A", some "A"⟩ ["OFFSET 1 2 3"] = .ok st1 ∧
      alGet st1.offsets "A" = some (⟨1, 1⟩, ⟨2, 1⟩, ⟨3, 1⟩) ∧
      st1.current = some "A" ∧
      runLines ⟨[], [], ["A"], ["A"], some "A", some "A"⟩
        ["OFFSET 1 2 3", "End Site", "\x7b", "OFFSET 4 5 6", "\x7d"] = .ok st2 ∧
      alGet st2.offsets "A" = some (⟨4, 1⟩, ⟨5, 1⟩, ⟨6, 1⟩) :=
  claim10_end_site_offset_overwrites ⟨[], [], ["A"], ["A"], some "A", some "A"⟩ "A"
    "OFFSET 1 2 3" "OFFSET 4 5 6" "1" "2" "3" "4" "5" "6"
    ⟨1, 1⟩ ⟨2, 1⟩ ⟨3, 1⟩ ⟨4, 1⟩ ⟨5, 1⟩ ⟨6, 1⟩
    rfl (by decide) (by decide) (by decide) (by decide) (by decide)
    (by decide) (by decide) (by decide) (by decide) (by decide)
    (by decide) (by decide) (by decide) (by decide) (by decide) (by decide)

theorem isPrefixOf_cons_head {c : Char} {p n : List Char}
    (h : (c :: p).isPrefixOf n = true) : ∃ t, n = c :: t := by
  cases n with
  | nil => simp [List.isPrefixOf] at h
  | cons d m =>
    simp only [List.isPrefixOf, Bool.and_eq_true, beq_iff_eq] at h
    exact ⟨m, by rw [h.1]⟩

/-- A left-lateral name starts with `'L'`, a right-lateral one with `'R'`,
so no name is both. -/
theorem left_right_exclusive (n : String) (h : is_left n = true) : is_right n = false := by
  have hhead : ∃ t, n.toList = 'L' :: t := by
    unfold is_left at h
    simp only [LEFT_PREFIXES, List.any_cons, List.any_nil, Bool.or_false,
      Bool.or_eq_true] at h
    rcases h with h | h
    · rw [(by decide : "Left".toList = 'L' :: ['e', 'f', 't'])] at h
      exact isPrefixOf_cons_head h
    · rw [(by decide : "L".toList = 'L' :: [])] at h
      exact isPrefixOf_cons_head h
  obtain ⟨t, ht⟩ := hhead
  unfold is_right
  simp only [RIGHT_PREFIXES, List.any_cons, List.any_nil, Bool.or_false]
  rw [(by decide : "Right".toList = 'R' :: ['i', 'g', 'h', 't']),
    (by decide : "R".toList = 'R' :: []), ht]
  simp [List.isPrefixOf]

theorem getLastD_cons_mem (xs : List String) : ∀ x d, (x :: xs).getLastD d ∈ x :: xs := by
  induction xs with
  | nil => intro x d; simp [List.getLastD]
  | cons y ys ih =>
    intro x d
    show (y :: ys).getLastD x ∈ x :: y :: ys
    exact List.mem_cons_of_mem _ (ih y x)

theorem toes_getLastD_mem (l : List String) (h : l ≠ []) : l.getLastD "" ∈ l := by
  cases hc : l with
  | nil => exact absurd hc h
  | cons x xs => exact getLastD_cons_mem xs x ""

theorem toesLeft_mem_is_left {order : List String} {n : String} (h : n ∈ toesLeft order) :
    is_left n = true := by
  unfold toesLeft at h
  rw [List.mem_filter] at h
  have h2 := h.2
  simp only [Bool.and_eq_true] at h2
  exact h2.1

theorem toesRight_mem_is_right {order : List String} {n : String} (h : n ∈ toesRight order) :
    is_right n = true := by
  unfold toesRight at h
  rw [List.mem_filter] at h
  have h2 := h.2
  simp only [Bool.and_eq_true] at h2
  exact h2.1

/-- The two sequential reassignments of the toe pass, with the `let`s of the
definition spelled out. -/
theorem pass4_unfold (order : List String) (m : List (String × String)) :
    ∃ m1, (m1 = if ¬(toesLeft order).isEmpty ∧ ¬alHasKey m "LeftToe" then
        alSet m ((toesLeft order).getLastD "") "LeftToe" else m) ∧
      pass4 order m = (if ¬(toesRight order).isEmpty ∧ ¬alHasKey m1 "RightToe" then
        alSet m1 ((toesRight order).getLastD "") "RightToe" else m1) :=
  ⟨_, rfl, rfl⟩

theorem alHasKey_alSet_ne {α : Type} (m : List (String × α)) (k k' : String) (v : α)
    (h : k' ≠ k) : alHasKey (alSet m k v) k' = alHasKey m k' := by
  unfold alHasKey
  rw [alGet_alSet_ne m k k' v h]

/-- C7: among the source names in traversal order that are left-lateral and
contain a toe hint, the toe pass assigns the last one the target `LeftToe`,
provided no earlier pass produced an entry for the key `"LeftToe"` (the code's
guard, which before the toe pass can only have been created by the identity
pass); mirrored for `RightToe`. -/
theorem claim7_last_toe_candidate_wins (order : List String) :
    (toesLeft order ≠ [] →
      alHasKey (pass3 order (pass2 order (pass1 order))) "LeftToe" = false →
      alGet (suggest_map order) ((toesLeft order).getLastD "") = some "LeftToe") ∧
    (toesRight order ≠ [] →
      alHasKey (pass3 order (pass2 order (pass1 order))) "RightToe" = false →
      alGet (suggest_map order) ((toesRight order).getLastD "") = some "RightToe") := by
  set m := pass3 order (pass2 order (pass1 order)) with hm
  obtain ⟨m1, hm1, hp4⟩ := pass4_unfold order m
  have hsm : suggest_map order = (if ¬(toesRight order).isEmpty ∧ ¬alHasKey m1 "RightToe" then
      alSet m1 ((toesRight order).getLastD "") "RightToe" else m1) := hp4
  constructor
  · intro htl hkey
    have hc1 : ¬(toesLeft order).isEmpty ∧ ¬alHasKey m "LeftToe" := by
      constructor
      · simp [List.isEmpty_iff, htl]
      · simp [hkey]
    rw [if_pos hc1] at hm1
    have htlm : (toesLeft order).getLastD "" ∈ toesLeft order := toes_getLastD_mem _ htl
    have htlL : is_left ((toesLeft order).getLastD "") = true := toesLeft_mem_is_left htlm
    rw [hsm]
    split
    next hc2 =>
      have htrm : (toesRight order).getLastD "" ∈ toesRight order := by
        apply toes_getLastD_mem
        intro hnil
        rw [hnil] at hc2
        simp at hc2
      have htrR : is_right ((toesRight order).getLastD "") = true := toesRight_mem_is_right htrm
      have hne : (toesLeft order).getLastD "" ≠ (toesRight order).getLastD "" := by
        intro heq
        rw [heq] at htlL
        rw [left_right_exclusive _ htlL] at htrR
        exact Bool.false_ne_true htrR
      rw [alGet_alSet_ne _ _ _ _ hne, hm1]
      exact alGet_alSet_same m _ "LeftToe"
    next hc2 =>
      rw [hm1]
      exact alGet_alSet_same m _ "LeftToe"
  · intro htr hkey
    have htrm : (toesRight order).getLastD "" ∈ toesRight order := toes_getLastD_mem _ htr
    have htrR : is_right ((toesRight order).getLastD "") = true := toesRight_mem_is_right htrm
    have hk1 : alHasKey m1 "RightToe" = false := by
      rw [hm1]
      split
      next hc1 =>
        have htlm : (toesLeft order).getLastD "" ∈ toesLeft order := by
          apply toes_getLastD_mem
          intro hnil
          rw [hnil] at hc1
          simp at hc1
        have htlL : is_left ((toesLeft order).getLastD "") = true := toesLeft_mem_is_left htlm
        have hne : "RightToe" ≠ (toesLeft order).getLastD "" := by
          intro heq
          rw [← heq] at htlL
          exact Bool.false_ne_true ((by decide : is_left "RightToe" = false) ▸ htlL)
        rw [alHasKey_alSet_ne _ _ _ _ hne]
        exact hkey
      next hc1 => exact hkey
    rw [hsm, if_pos ⟨by simp [List.isEmpty_iff, htr], by simp [hk1]⟩]
    exact alGet_alSet_same m1 _ "RightToe"

/-- C7 witness: for order `["LeftFoot", "LeftToe_01", "LeftToe_02"]` the
mapping assigns `LeftToe_02 -> LeftToe` (the last left toe candidate). -/
theorem claim7_witness :
    alGet (suggest_map ["LeftFoot", "LeftToe_01", "LeftToe_02"]) "LeftToe_02" =
      some "LeftToe" := by
  have h := (claim7_last_toe_candidate_wins ["LeftFoot", "LeftToe_01", "LeftToe_02"]).1
    (by decide) (by decide)
  rw [(by decide : (toesLeft ["LeftFoot", "LeftToe_01", "LeftToe_02"]).getLastD "" =
    "LeftToe_02")] at h
  exact h

theorem bool_eq_false_of_not_true {b : Bool} (h : ¬ b = true) : b = false := by
  cases b
  · rfl
  · exact absurd rfl h

theorem alHasKey_mono_alSet {α : Type} (m : List (String × α)) (k' : String) (v : α)
    (k : String) (h : alHasKey m k = true) : alHasKey (alSet m k' v) k = true := by
  by_cases hk : k = k'
  · subst hk
    unfold alHasKey
    rw [alGet_alSet_same]
    rfl
  · unfold alHasKey at h ⊢
    rw [alGet_alSet_ne _ _ _ _ hk]
    exact h

/-- The two sequential `if` statements of the clavicle loop body, with the
`let`s of the definition spelled out. -/
theorem clavStep_unfold (m : List (String × String)) (n : String) :
    ∃ mL, (mL = if strContains (pyLower n) "clavicle" ∧ ¬alHasKey m "LeftShoulder" ∧ is_left n
        then alSet m n "LeftShoulder" else m) ∧
      clavStep m n = (if strContains (pyLower n) "clavicle" ∧ ¬alHasKey mL "RightShoulder" ∧
          is_right n then alSet mL n "RightShoulder" else mL) :=
  ⟨_, rfl, rfl⟩

theorem clavStep_hasKey_mono (m : List (String × String)) (n k : String)
    (h : alHasKey m k = true) : alHasKey (clavStep m n) k = true := by
  obtain ⟨mL, hmL, hstep⟩ := clavStep_unfold m n
  have hL : alHasKey mL k = true := by
    rw [hmL]
    split
    · exact alHasKey_mono_alSet m n "LeftShoulder" k h
    · exact h
  rw [hstep]
  split
  · exact alHasKey_mono_alSet mL n "RightShoulder" k hL
  · exact hL

theorem pass3_hasKey_mono (o : List String) (m : List (String × String)) (k : String)
    (h : alHasKey m k = true) : alHasKey (pass3 o m) k = true := by
  induction o generalizing m with
  | nil => exact h
  | cons n rest ih =>
    show alHasKey (pass3 rest (clavStep m n)) k = true
    exact ih _ (clavStep_hasKey_mono m n k h)

theorem clavStep_get_ne (m : List (String × String)) (n k : String)
    (h : strContains (pyLower k) "clavicle" = false) :
    alGet (clavStep m n) k = alGet m k := by
  obtain ⟨mL, hmL, hstep⟩ := clavStep_unfold m n
  have hLget : alGet mL k = alGet m k := by
    rw [hmL]
    split
    next hc =>
      have hne : k ≠ n := by
        intro heq
        rw [← heq, h] at hc
        exact Bool.false_ne_true hc.1
      exact alGet_alSet_ne m n k "LeftShoulder" hne
    next _ => rfl
  rw [hstep]
  split
  next hc =>
    have hne : k ≠ n := by
      intro heq
      rw [← heq, h] at hc
      exact Bool.false_ne_true hc.1
    rw [alGet_alSet_ne mL n k "RightShoulder" hne]
    exact hLget
  next _ => exact hLget

theorem pass3_get_ne (o : List String) (m : List (String × String)) (k : String)
    (h : strContains (pyLower k) "clavicle" = false) :
    alGet (pass3 o m) k = alGet m k := by
  induction o generalizing m with
  | nil => rfl
  | cons n rest ih =>
    show alGet (pass3 rest (clavStep m n)) k = alGet m k
    rw [ih (clavStep m n), clavStep_get_ne m n k h]

theorem clavStep_src (m : List (String × String)) (n k v : String)
    (h : alGet (clavStep m n) k = some v) :
    alGet m k = some v ∨
      (k = n ∧ strContains (pyLower k) "clavicle" = true ∧
        ((v = "LeftShoulder" ∧ is_left k = true ∧ alHasKey m "LeftShoulder" = false) ∨
         (v = "RightShoulder" ∧ is_right k = true ∧ alHasKey m "RightShoulder" = false))) := by
  obtain ⟨mL, hmL, hstep⟩ := clavStep_unfold m n
  rw [hstep] at h
  by_cases hkn : k = n
  · subst hkn
    revert h
    split
    next hc2 =>
      intro h
      rw [alGet_alSet_same] at h
      have hmono : alHasKey m "RightShoulder" = true → alHasKey mL "RightShoulder" = true := by
        intro hb
        rw [hmL]
        split
        · exact alHasKey_mono_alSet _ _ _ _ hb
        · exact hb
      have hmRS : alHasKey m "RightShoulder" = false := by
        cases hb : alHasKey m "RightShoulder"
        · rfl
        · exact absurd (hmono hb) hc2.2.1
      exact Or.inr ⟨rfl, hc2.1, Or.inr ⟨(Option.some.inj h).symm, hc2.2.2, hmRS⟩⟩
    next hc2 =>
      intro h
      rw [hmL] at h
      revert h
      split
      next hc1 =>
        intro h
        rw [alGet_alSet_same] at h
        have hmLS : alHasKey m "LeftShoulder" = false :=
          bool_eq_false_of_not_true hc1.2.1
        exact Or.inr ⟨rfl, hc1.1, Or.inl ⟨(Option.some.inj h).symm, hc1.2.2, hmLS⟩⟩
      next hc1 =>
        intro h
        exact Or.inl h
  · have h2 : alGet mL k = some v := by
      revert h
      split
      · intro h
        rwa [alGet_alSet_ne _ _ _ _ hkn] at h
      · exact id
    rw [hmL] at h2
    revert h2
    split
    · intro h2
      rw [alGet_alSet_ne _ _ _ _ hkn] at h2
      exact Or.inl h2
    · exact fun h2 => Or.inl h2

theorem pass3_src (o : List String) (m : List (String × String)) (k v : String)
    (h : alGet (pass3 o m) k = some v) :
    alGet m k = some v ∨
      (strContains (pyLower k) "clavicle" = true ∧ k ∈ o ∧
        ((v = "LeftShoulder" ∧ is_left k = true ∧ alHasKey m "LeftShoulder" = false) ∨
         (v = "RightShoulder" ∧ is_right k = true ∧ alHasKey m "RightShoulder" = false))) := by
  induction o generalizing m with
  | nil => exact Or.inl h
  | cons n rest ih =>
    have h' : alGet (pass3 rest (clavStep m n)) k = some v := h
    rcases ih (clavStep m n) h' with h1 | h1
    · rcases clavStep_src m n k v h1 with h2 | h2
      · exact Or.inl h2
      · exact Or.inr ⟨h2.2.1, by rw [h2.1]; exact List.mem_cons_self n rest, h2.2.2⟩
    · refine Or.inr ⟨h1.1, List.mem_cons_of_mem _ h1.2.1, ?_⟩
      rcases h1.2.2 with ⟨hv, hl, hk⟩ | ⟨hv, hr, hk⟩
      · refine Or.inl ⟨hv, hl, ?_⟩
        cases hb : alHasKey m "LeftShoulder"
        · rfl
        · exact (Bool.false_ne_true
            ((hk ▸ clavStep_hasKey_mono m n "LeftShoulder" hb).symm).symm).elim
      · refine Or.inr ⟨hv, hr, ?_⟩
        cases hb : alHasKey m "RightShoulder"
        · rfl
        · exact (Bool.false_ne_true
            ((hk ▸ clavStep_hasKey_mono m n "RightShoulder" hb).symm).symm).elim

theorem pass1_aux (o : List String) (m : List (String × String)) (k : String) :
    alGet (o.foldl (fun m n => if n ∈ CANONICAL_GMR_SET then alSet m n n else m) m) k =
      if k ∈ o ∧ k ∈ CANONICAL_GMR_SET then some k else alGet m k := by
  induction o generalizing m with
  | nil => simp
  | cons n rest ih =>
    simp only [List.foldl_cons]
    rw [ih]
    by_cases hk : k ∈ rest ∧ k ∈ CANONICAL_GMR_SET
    · rw [if_pos hk, if_pos ⟨List.mem_cons_of_mem _ hk.1, hk.2⟩]
    · rw [if_neg hk]
      by_cases hkn : k = n
      · subst hkn
        by_cases hc : k ∈ CANONICAL_GMR_SET
        · rw [if_pos hc, if_pos ⟨List.mem_cons_self k rest, hc⟩, alGet_alSet_same]
        · rw [if_neg hc, if_neg (fun hh => hc hh.2)]
      · have hcond : ¬(k ∈ n :: rest ∧ k ∈ CANONICAL_GMR_SET) := by
          intro hh
          rcases List.mem_cons.mp hh.1 with h1 | h1
          · exact hkn h1
          · exact hk ⟨h1, hh.2⟩
        rw [if_neg hcond]
        by_cases hc : n ∈ CANONICAL_GMR_SET
        · rw [if_pos hc, alGet_alSet_ne _ _ _ _ hkn]
        · rw [if_neg hc]

theorem pass1_get (o : List String) (k : String) :
    alGet (pass1 o) k = if k ∈ o ∧ k ∈ CANONICAL_GMR_SET then some k else none := by
  unfold pass1
  rw [pass1_aux]
  rfl

theorem pass1_keys_canonical (o : List String) (k v : String)
    (h : alGet (pass1 o) k = some v) : k ∈ CANONICAL_GMR_SET ∧ v = k ∧ k ∈ o := by
  rw [pass1_get] at h
  revert h
  split
  next hc => exact fun h => ⟨hc.2, (Option.some.inj h).symm, hc.1⟩
  next hc => intro h; simp at h

theorem pass2_aux_ne (vs : List (String × String)) (o : List String)
    (m : List (String × String)) (k : String) (hk : ∀ sd ∈ vs, sd.1 ≠ k) :
    alGet (vs.foldl (fun m sd =>
      if sd.1 ∈ o ∧ sd.2 ∈ CANONICAL_GMR_SET then alSet m sd.1 sd.2 else m) m) k =
      alGet m k := by
  induction vs generalizing m with
  | nil => rfl
  | cons sd rest ih =>
    simp only [List.foldl_cons]
    rw [ih _ (fun x hx => hk x (List.mem_cons_of_mem _ hx))]
    split
    · exact alGet_alSet_ne _ _ _ _ (fun heq => hk sd (List.mem_cons_self sd rest) heq.symm)
    · rfl

theorem pass2_get_ne (o : List String) (m : List (String × String)) (k : String)
    (hk : ∀ sd ∈ variants, sd.1 ≠ k) : alGet (pass2 o m) k = alGet m k :=
  pass2_aux_ne variants o m k hk

theorem pass2_aux_src (vs : List (String × String)) (o : List String)
    (m : List (String × String)) (k v : String)
    (h : alGet (vs.foldl (fun m sd =>
      if sd.1 ∈ o ∧ sd.2 ∈ CANONICAL_GMR_SET then alSet m sd.1 sd.2 else m) m) k = some v) :
    alGet m k = some v ∨ (k, v) ∈ vs := by
  induction vs generalizing m with
  | nil => exact Or.inl h
  | cons sd rest ih =>
    obtain ⟨s, d⟩ := sd
    simp only [List.foldl_cons] at h
    rcases ih _ h with h1 | h1
    · revert h1
      split
      next hc =>
        intro h1
        by_cases hkeq : k = s
        · subst hkeq
          rw [alGet_alSet_same] at h1
          exact Or.inr (List.mem_cons.mpr (Or.inl (by rw [Option.some.inj h1])))
        · rw [alGet_alSet_ne _ _ _ _ hkeq] at h1
          exact Or.inl h1
      next hc => exact fun h1 => Or.inl h1
    · exact Or.inr (List.mem_cons_of_mem _ h1)

theorem pass2_src (o : List String) (m : List (String × String)) (k v : String)
    (h : alGet (pass2 o m) k = some v) : alGet m k = some v ∨ (k, v) ∈ variants :=
  pass2_aux_src variants o m k v h

theorem pass4_src (o : List String) (m : List (String × String)) (k v : String)
    (h : alGet (pass4 o m) k = some v) :
    alGet m k = some v ∨ v = "LeftToe" ∨ v = "RightToe" := by
  obtain ⟨m1, hm1, hp4⟩ := pass4_unfold o m
  rw [hp4] at h
  have h1 : alGet m1 k = some v ∨ v = "RightToe" := by
    revert h
    split
    · intro h
      by_cases hk : k = (toesRight o).getLastD ""
      · rw [hk, alGet_alSet_same] at h
        exact Or.inr (Option.some.inj h).symm
      · rw [alGet_alSet_ne _ _ _ _ hk] at h
        exact Or.inl h
    · exact fun h => Or.inl h
  rcases h1 with h1 | h1
  · rw [hm1] at h1
    revert h1
    split
    · intro h1
      by_cases hk : k = (toesLeft o).getLastD ""
      · rw [hk, alGet_alSet_same] at h1
        exact Or.inr (Or.inl (Option.some.inj h1).symm)
      · rw [alGet_alSet_ne _ _ _ _ hk] at h1
        exact Or.inl h1
    · exact fun h1 => Or.inl h1
  · exact Or.inr (Or.inr h1)

theorem variants_fst_not_canonical : ∀ sd ∈ variants, sd.1 ∉ CANONICAL_GMR_SET := by decide

theorem canonical_not_clav :
    ∀ s ∈ CANONICAL_GMR_SET, strContains (pyLower s) "clavicle" = false := by decide

theorem variants_fst_not_clav :
    ∀ sd ∈ variants, strContains (pyLower sd.1) "clavicle" = false := by decide

theorem variants_snd_ne_shoulder :
    ∀ sd ∈ variants, sd.2 ≠ "LeftShoulder" ∧ sd.2 ≠ "RightShoulder" := by decide

theorem canonical_left_toe : ∀ s ∈ CANONICAL_GMR_SET, is_left s = true →
    TOE_HINTS.any (fun hh => strContains s hh) = true → s = "LeftToe" := by decide

theorem canonical_right_toe : ∀ s ∈ CANONICAL_GMR_SET, is_right s = true →
    TOE_HINTS.any (fun hh => strContains s hh) = true → s = "RightToe" := by decide

theorem variants_left_toe : ∀ sd ∈ variants, is_left sd.1 = true →
    TOE_HINTS.any (fun hh => strContains sd.1 hh) = true → sd.2 = "LeftToe" := by decide

theorem variants_right_toe : ∀ sd ∈ variants, is_right sd.1 = true →
    TOE_HINTS.any (fun hh => strContains sd.1 hh) = true → sd.2 = "RightToe" := by decide

theorem toesLeft_mem_toe {order : List String} {n : String} (h : n ∈ toesLeft order) :
    TOE_HINTS.any (fun hh => strContains n hh) = true := by
  unfold toesLeft at h
  rw [List.mem_filter] at h
  have h2 := h.2
  simp only [Bool.and_eq_true] at h2
  exact h2.2

theorem toesRight_mem_toe {order : List String} {n : String} (h : n ∈ toesRight order) :
    TOE_HINTS.any (fun hh => strContains n hh) = true := by
  unfold toesRight at h
  rw [List.mem_filter] at h
  have h2 := h.2
  simp only [Bool.and_eq_true] at h2
  exact h2.2

theorem toesLeft_mem_order {order : List String} {n : String} (h : n ∈ toesLeft order) :
    n ∈ order := (List.mem_filter.mp h).1

theorem toesRight_mem_order {order : List String} {n : String} (h : n ∈ toesRight order) :
    n ∈ order := (List.mem_filter.mp h).1

theorem preserve12 (o : List String) (k v : String)
    (h : alGet (pass1 o) k = some v) : alGet (pass2 o (pass1 o)) k = some v := by
  have hk := (pass1_keys_canonical o k v h).1
  rw [pass2_get_ne o (pass1 o) k
    (fun sd hsd heq => variants_fst_not_canonical sd hsd (by rw [heq]; exact hk))]
  exact h

theorem preserve23 (o : List String) (k v : String)
    (h : alGet (pass2 o (pass1 o)) k = some v) :
    alGet (pass3 o (pass2 o (pass1 o))) k = some v := by
  have hnc : strContains (pyLower k) "clavicle" = false := by
    rcases pass2_src o (pass1 o) k v h with h1 | h1
    · exact canonical_not_clav k (pass1_keys_canonical o k v h1).1
    · exact variants_fst_not_clav (k, v) h1
  rw [pass3_get_ne o _ k hnc]
  exact h

theorem preserve34 (o : List String) (k v : String)
    (H : ∀ n ∈ o, strContains (pyLower n) "clavicle" = true →
      TOE_HINTS.any (fun hh => strContains n hh) = true →
      is_left n = false ∧ is_right n = false)
    (h : alGet (pass3 o (pass2 o (pass1 o))) k = some v) :
    alGet (pass4 o (pass3 o (pass2 o (pass1 o)))) k = some v := by
  set s3 := pass3 o (pass2 o (pass1 o)) with hs3
  obtain ⟨m1, hm1, hp4⟩ := pass4_unfold o s3
  have hA : alGet m1 k = some v := by
    rw [hm1]
    split
    next hc1 =>
      by_cases hkt : k = (toesLeft o).getLastD ""
      · have htl : toesLeft o ≠ [] := by
          intro hnil
          rw [hnil] at hc1
          simp at hc1
        have hkmem : k ∈ toesLeft o := by
          rw [hkt]
          exact toes_getLastD_mem _ htl
        have hkL : is_left k = true := toesLeft_mem_is_left hkmem
        have hkT : TOE_HINTS.any (fun hh => strContains k hh) = true := toesLeft_mem_toe hkmem
        have hko : k ∈ o := toesLeft_mem_order hkmem
        have hv : v = "LeftToe" := by
          rcases pass3_src o _ k v h with h1 | h1
          · rcases pass2_src o _ k v h1 with h2 | h2
            · have hc := pass1_keys_canonical o k v h2
              have hkc : k = "LeftToe" := canonical_left_toe k hc.1 hkL hkT
              exfalso
              apply hc1.2
              rw [← hkc]
              unfold alHasKey
              rw [hs3] at h
              rw [h]
              rfl
            · exact variants_left_toe (k, v) h2 hkL hkT
          · exact absurd hkL (by rw [(H k hko h1.1 hkT).1]; exact Bool.false_ne_true)
        rw [hkt, alGet_alSet_same] at *
        rw [hv]
      · rw [alGet_alSet_ne _ _ _ _ hkt]
        exact h
    next hc1 => exact h
  rw [hp4]
  split
  next hc2 =>
    by_cases hkt : k = (toesRight o).getLastD ""
    · have htr : toesRight o ≠ [] := by
        intro hnil
        rw [hnil] at hc2
        simp at hc2
      have hkmem : k ∈ toesRight o := by
        rw [hkt]
        exact toes_getLastD_mem _ htr
      have hkR : is_right k = true := toesRight_mem_is_right hkmem
      have hkT : TOE_HINTS.any (fun hh => strContains k hh) = true := toesRight_mem_toe hkmem
      have hko : k ∈ o := toesRight_mem_order hkmem
      have hs3k : alGet s3 k = some v := h
      have hv : v = "RightToe" := by
        rcases pass3_src o _ k v hs3k with h1 | h1
        · rcases pass2_src o _ k v h1 with h2 | h2
          · have hc := pass1_keys_canonical o k v h2
            have hkc : k = "RightToe" := canonical_right_toe k hc.1 hkR hkT
            exfalso
            apply hc2.2
            rw [← hkc]
            unfold alHasKey
            rw [hA]
            rfl
          · exact variants_right_toe (k, v) h2 hkR hkT
        · exact absurd hkR (by rw [(H k hko h1.1 hkT).2]; exact Bool.false_ne_true)
      rw [hkt, alGet_alSet_same] at *
      rw [hv]
    · rw [alGet_alSet_ne _ _ _ _ hkt]
      exact hA
  next hc2 => exact hA

/-- C9 (amended): across the four mapper passes, once a source key has been
assigned a target, no later pass changes that key's value — provided no name
in `order` contains both `"clavicle"` (lowercased) and a toe hint while being
left- or right-lateral (for such a name the toe pass overwrites the clavicle
pass's assignment, see the counterexample). -/
theorem claim9_passes_preserve_first_assignment (order : List String)
    (H : ∀ n ∈ order, strContains (pyLower n) "clavicle" = true →
      TOE_HINTS.any (fun hh => strContains n hh) = true →
      is_left n = false ∧ is_right n = false) :
    (∀ k v, alGet (pass1 order) k = some v → alGet (suggest_map order) k = some v) ∧
    (∀ k v, alGet (pass2 order (pass1 order)) k = some v →
      alGet (suggest_map order) k = some v) ∧
    (∀ k v, alGet (pass3 order (pass2 order (pass1 order))) k = some v →
      alGet (suggest_map order) k = some v) := by
  refine ⟨fun k v h => ?_, fun k v h => ?_, fun k v h => ?_⟩
  · exact preserve34 order k v H (preserve23 order k v (preserve12 order k v h))
  · exact preserve34 order k v H (preserve23 order k v h)
  · exact preserve34 order k v H h

/-- C9 witness: a concrete order with a toe name and a right clavicle name
(none mixing the two), where the clavicle-pass assignment survives to the
final mapping. -/
theorem claim9_witness :
    alGet (suggest_map ["LeftToe_01", "RClavicle"]) "RClavicle" = some "RightShoulder" :=
  (claim9_passes_preserve_first_assignment ["LeftToe_01", "RClavicle"] (by decide)).2.2
    "RClavicle" "RightShoulder" (by decide)

theorem hasKey_LS_of_mem (o : List String) (h : "LeftShoulder" ∈ o) :
    alHasKey (pass2 o (pass1 o)) "LeftShoulder" = true := by
  have h1 : alGet (pass1 o) "LeftShoulder" = some "LeftShoulder" := by
    rw [pass1_get, if_pos ⟨h, by decide⟩]
  have h2 := preserve12 o "LeftShoulder" "LeftShoulder" h1
  unfold alHasKey
  rw [h2]
  rfl

theorem hasKey_RS_of_mem (o : List String) (h : "RightShoulder" ∈ o) :
    alHasKey (pass2 o (pass1 o)) "RightShoulder" = true := by
  have h1 : alGet (pass1 o) "RightShoulder" = some "RightShoulder" := by
    rw [pass1_get, if_pos ⟨h, by decide⟩]
  have h2 := preserve12 o "RightShoulder" "RightShoulder" h1
  unfold alHasKey
  rw [h2]
  rfl

theorem left_shoulder_src (o : List String) (k : String)
    (h : alGet (suggest_map o) k = some "LeftShoulder") :
    (k = "LeftShoulder" ∧ k ∈ o) ∨
      (strContains (pyLower k) "clavicle" = true ∧ is_left k = true ∧ k ∈ o ∧
        "LeftShoulder" ∉ o) := by
  have h3 : alGet (pass3 o (pass2 o (pass1 o))) k = some "LeftShoulder" := by
    rcases pass4_src o _ k _ h with h1 | h1 | h1
    · exact h1
    · exact absurd h1 (by decide)
    · exact absurd h1 (by decide)
  rcases pass3_src o _ k _ h3 with h1 | h1
  · rcases pass2_src o _ k _ h1 with h2 | h2
    · have hc := pass1_keys_canonical o k _ h2
      exact Or.inl ⟨hc.2.1.symm, hc.2.2⟩
    · exact absurd rfl (variants_snd_ne_shoulder _ h2).1
  · rcases h1.2.2 with ⟨hv, hl, hk⟩ | ⟨hv, hr, hk⟩
    · refine Or.inr ⟨h1.1, hl, h1.2.1, ?_⟩
      intro hLS
      rw [hasKey_LS_of_mem o hLS] at hk
      simp at hk
    · exact absurd hv (by decide)

theorem right_shoulder_src (o : List String) (k : String)
    (h : alGet (suggest_map o) k = some "RightShoulder") :
    (k = "RightShoulder" ∧ k ∈ o) ∨
      (strContains (pyLower k) "clavicle" = true ∧ is_right k = true ∧ k ∈ o ∧
        "RightShoulder" ∉ o) := by
  have h3 : alGet (pass3 o (pass2 o (pass1 o))) k = some "RightShoulder" := by
    rcases pass4_src o _ k _ h with h1 | h1 | h1
    · exact h1
    · exact absurd h1 (by decide)
    · exact absurd h1 (by decide)
  rcases pass3_src o _ k _ h3 with h1 | h1
  · rcases pass2_src o _ k _ h1 with h2 | h2
    · have hc := pass1_keys_canonical o k _ h2
      exact Or.inl ⟨hc.2.1.symm, hc.2.2⟩
    · exact absurd rfl (variants_snd_ne_shoulder _ h2).2
  · rcases h1.2.2 with ⟨hv, hl, hk⟩ | ⟨hv, hr, hk⟩
    · exact absurd hv (by decide)
    · refine Or.inr ⟨h1.1, hr, h1.2.1, ?_⟩
      intro hRS
      rw [hasKey_RS_of_mem o hRS] at hk
      simp at hk

/-- C8 (amended): a clavicle name is mapped to `LeftShoulder`/`RightShoulder`
by laterality only when that name is not already a key of the mapping (before
the clavicle pass, only the identity pass can have claimed it); the final
mapping has at most one source with target `LeftShoulder` provided `order`
contains at most one distinct left-lateral clavicle name, and mirrored for
`RightShoulder` (two distinct clavicle names of the same laterality defeat
the guard, see the counterexample). -/
theorem claim8_at_most_one_shoulder_source (order : List String) :
    ((∀ n1 ∈ order, ∀ n2 ∈ order,
        strContains (pyLower n1) "clavicle" = true → is_left n1 = true →
        strContains (pyLower n2) "clavicle" = true → is_left n2 = true → n1 = n2) →
      ∀ k1 k2, alGet (suggest_map order) k1 = some "LeftShoulder" →
        alGet (suggest_map order) k2 = some "LeftShoulder" → k1 = k2) ∧
    ((∀ n1 ∈ order, ∀ n2 ∈ order,
        strContains (pyLower n1) "clavicle" = true → is_right n1 = true →
        strContains (pyLower n2) "clavicle" = true → is_right n2 = true → n1 = n2) →
      ∀ k1 k2, alGet (suggest_map order) k1 = some "RightShoulder" →
        alGet (suggest_map order) k2 = some "RightShoulder" → k1 = k2) := by
  constructor
  · intro hH k1 k2 h1 h2
    rcases left_shoulder_src order k1 h1 with ⟨e1, m1⟩ | ⟨c1, l1, o1, no1⟩ <;>
      rcases left_shoulder_src order k2 h2 with ⟨e2, m2⟩ | ⟨c2, l2, o2, no2⟩
    · rw [e1, e2]
    · exact absurd (by rw [← e1]; exact m1) no2
    · exact absurd (by rw [← e2]; exact m2) no1
    · exact hH k1 o1 k2 o2 c1 l1 c2 l2
  · intro hH k1 k2 h1 h2
    rcases right_shoulder_src order k1 h1 with ⟨e1, m1⟩ | ⟨c1, l1, o1, no1⟩ <;>
      rcases right_shoulder_src order k2 h2 with ⟨e2, m2⟩ | ⟨c2, l2, o2, no2⟩
    · rw [e1, e2]
    · exact absurd (by rw [← e1]; exact m1) no2
    · exact absurd (by rw [← e2]; exact m2) no1
    · exact hH k1 o1 k2 o2 c1 l1 c2 l2

/-- C8 witness: with one left and one right clavicle name in the order, the
source of each shoulder target is unique (instantiated at the two keys that do
map to the shoulders). -/
theorem claim8_witness :
    "LClavicle" = "LClavicle" ∧ "RClavicle" = "RClavicle" :=
  ⟨(claim8_at_most_one_shoulder_source ["LClavicle", "RClavicle"]).1 (by decide)
      "LClavicle" "LClavicle" (by decide) (by decide),
    (claim8_at_most_one_shoulder_source ["LClavicle", "RClavicle"]).2 (by decide)
      "RClavicle" "RClavicle" (by decide) (by decide)⟩

theorem Before_append (l : List String) (p c n : String) (h : Before l p c) :
    Before (l ++ [n]) p c := by
  obtain ⟨l1, l2, l3, hd⟩ := h
  exact ⟨l1, l2, l3 ++ [n], by rw [hd]; simp⟩

theorem Before_mem_append (l : List String) (p n : String) (h : p ∈ l) :
    Before (l ++ [n]) p n := by
  obtain ⟨s, t, rfl⟩ := List.append_of_mem h
  exact ⟨s, t, [], by simp⟩

theorem Before_mem (l : List String) (p c : String) (h : Before l p c) :
    p ∈ l ∧ c ∈ l := by
  obtain ⟨l1, l2, l3, rfl⟩ := h
  constructor <;> simp

theorem childAppend_edge (ch : List (String × List String)) (p0 c0 p c : String)
    (cs : List String) (h : (p, cs) ∈ childAppend ch p0 c0) (hc : c ∈ cs) :
    (∃ cs', (p, cs') ∈ ch ∧ c ∈ cs') ∨ (p = p0 ∧ c = c0) := by
  induction ch with
  | nil =>
    simp only [childAppend, List.mem_singleton, Prod.mk.injEq] at h
    right
    refine ⟨h.1, ?_⟩
    rw [h.2] at hc
    simpa using hc
  | cons e rest ih =>
    unfold childAppend at h
    by_cases he : e.1 = p0
    · rw [if_pos he] at h
      rcases List.mem_cons.mp h with h1 | h1
      · have hp : p = e.1 := (Prod.mk.injEq .. ▸ h1).1
        have hcs : cs = e.2 ++ [c0] := (Prod.mk.injEq .. ▸ h1).2
        rw [hcs] at hc
        rcases List.mem_append.mp hc with h2 | h2
        · exact Or.inl ⟨e.2, by rw [hp]; exact List.mem_cons_self e rest, h2⟩
        · exact Or.inr ⟨hp.trans he, by simpa using h2⟩
      · exact Or.inl ⟨cs, List.mem_cons_of_mem _ h1, hc⟩
    · rw [if_neg he] at h
      rcases List.mem_cons.mp h with h1 | h1
      · exact Or.inl ⟨cs, by rw [← h1]; exact List.mem_cons_self (p, cs) rest, hc⟩
      · rcases ih h1 with ⟨cs', hm, hc'⟩ | hr
        · exact Or.inl ⟨cs', List.mem_cons_of_mem _ hm, hc'⟩
        · exact Or.inr hr

theorem childAppend_count (ch : List (String × List String)) (p0 c0 c : String) :
    countEdges (childAppend ch p0 c0) c =
      countEdges ch c + (if c0 = c then 1 else 0) := by
  have hcnt : [c0].count c = (if c0 = c then 1 else 0) := List.count_singleton' c c0
  induction ch with
  | nil =>
    show [c0].count c + 0 = 0 + _
    omega
  | cons e rest ih =>
    unfold childAppend
    by_cases he : e.1 = p0
    · rw [if_pos he]
      show (e.2 ++ [c0]).count c + countEdges rest c = e.2.count c + countEdges rest c + _
      rw [List.count_append, hcnt]
      omega
    · rw [if_neg he]
      show e.2.count c + countEdges (childAppend rest p0 c0) c = _
      rw [ih]
      show _ = e.2.count c + countEdges rest c + _
      omega

theorem rankIn_lt_of_before (l : List String) (p c : String) (hnd : l.Nodup)
    (h : Before l p c) : rankIn l p < rankIn l c := by
  obtain ⟨l1, l2, l3, rfl⟩ := h
  revert hnd
  induction l1 with
  | nil =>
    intro hnd
    have hpc : p ≠ c := by
      intro heq
      subst heq
      exact (List.nodup_cons.mp hnd).1 (by simp)
    show rankIn (p :: (l2 ++ c :: l3)) p < rankIn (p :: (l2 ++ c :: l3)) c
    unfold rankIn
    rw [if_pos rfl, if_neg hpc]
    omega
  | cons x l1 ih =>
    intro hnd
    have hx : x ∉ l1 ++ p :: l2 ++ c :: l3 := (List.nodup_cons.mp hnd).1
    have hnd' : (l1 ++ p :: l2 ++ c :: l3).Nodup := (List.nodup_cons.mp hnd).2
    have hxp : x ≠ p := fun heq => hx (by rw [heq]; simp)
    have hxc : x ≠ c := fun heq => hx (by rw [heq]; simp)
    show rankIn (x :: (l1 ++ p :: l2 ++ c :: l3)) p <
      rankIn (x :: (l1 ++ p :: l2 ++ c :: l3)) c
    unfold rankIn
    rw [if_neg hxp, if_neg hxc]
    exact Nat.succ_lt_succ (ih hnd')

theorem ParseInv_offsets {st st1 : ParseState} (hi : ParseInv st)
    (hch : st1.children = st.children) (hor : st1.order = st.order)
    (hsk : st1.stack = st.stack) (hcu : st1.current = st.current) : ParseInv st1 := by
  refine ⟨?_, ?_, ?_, ?_⟩
  · intro n hn
    rw [hor]
    exact hi.stack_sub n (hsk ▸ hn)
  · intro c hc
    rw [hor]
    exact hi.cur_sub c (hcu ▸ hc)
  · intro p cs hm c hc
    rw [hor]
    exact hi.edge_before p cs (hch ▸ hm) c hc
  · intro c
    rw [hor, hch]
    exact hi.edge_count c

theorem processLine_inv (st : ParseState) (ln : String) (st1 : ParseState)
    (h : processLine st ln = .ok st1) (hi : ParseInv st) : ParseInv st1 := by
  unfold processLine at h
  cases hj : reJointMatch ln with
  | some tn =>
    cases hcur : st.current with
    | some cur =>
      simp only [hj, hcur] at h
      have hst : st1 = { st with
          children := childAppend st.children cur tn.2,
          order := st.order ++ [tn.2], stack := tn.2 :: st.stack,
          current := some tn.2 } := (Except.ok.inj h).symm
      subst hst
      refine ⟨?_, ?_, ?_, ?_⟩
      · intro n hn
        rcases List.mem_cons.mp hn with h1 | h1
        · simp [h1]
        · exact List.mem_append_left _ (hi.stack_sub n h1)
      · intro c hc
        simp only [Option.some.injEq] at hc
        simp [← hc]
      · intro p cs hm c hc
        rcases childAppend_edge st.children cur tn.2 p c cs hm hc with ⟨cs', hm', hc'⟩ | ⟨hp, hcn⟩
        · exact Before_append _ _ _ _ (hi.edge_before p cs' hm' c hc')
        · rw [hp, hcn]
          exact Before_mem_append _ _ _ (hi.cur_sub cur hcur)
      · intro c
        show countEdges (childAppend st.children cur tn.2) c ≤ (st.order ++ [tn.2]).count c
        rw [childAppend_count, List.count_append]
        have h1 := hi.edge_count c
        have hcnt : [tn.2].count c = (if tn.2 = c then 1 else 0) :=
          List.count_singleton' c tn.2
        rw [hcnt]
        omega
    | none =>
      simp only [hj, hcur] at h
      have hst : st1 = { st with
          root_name := some tn.2,
          order := st.order ++ [tn.2], stack := tn.2 :: st.stack,
          current := some tn.2 } := (Except.ok.inj h).symm
      subst hst
      refine ⟨?_, ?_, ?_, ?_⟩
      · intro n hn
        rcases List.mem_cons.mp hn with h1 | h1
        · simp [h1]
        · exact List.mem_append_left _ (hi.stack_sub n h1)
      · intro c hc
        simp only [Option.some.injEq] at hc
        simp [← hc]
      · intro p cs hm c hc
        exact Before_append _ _ _ _ (hi.edge_before p cs hm c hc)
      · intro c
        show countEdges st.children c ≤ (st.order ++ [tn.2]).count c
        rw [List.count_append]
        have h1 := hi.edge_count c
        omega
  | none =>
    simp only [hj] at h
    revert h
    split
    · intro h
      have hst : st1 = st := (Except.ok.inj h).symm
      subst hst
      exact hi
    · split
      · intro h
        have hst : st1 = st := (Except.ok.inj h).symm
        subst hst
        exact hi
      · split
        · cases hs : st.stack with
          | nil =>
            intro h
            have hst : st1 = st := (Except.ok.inj h).symm
            subst hst
            exact hi
          | cons x rest =>
            intro h
            have hst : st1 = { st with stack := rest, current := rest.head? } :=
              (Except.ok.inj h).symm
            subst hst
            refine ⟨?_, ?_, ?_, ?_⟩
            · intro n hn
              exact hi.stack_sub n (by rw [hs]; exact List.mem_cons_of_mem _ hn)
            · intro c hc
              have hcr : c ∈ rest := by
                cases hr : rest with
                | nil =>
                  rw [hr] at hc
                  simp at hc
                | cons y ys =>
                  rw [hr] at hc
                  simp only [List.head?, Option.some.injEq] at hc
                  simp [hc]
              exact hi.stack_sub c (by rw [hs]; exact List.mem_cons_of_mem _ hcr)
            · exact hi.edge_before
            · exact hi.edge_count
        · intro h
          cases ho : reOffsetMatch ln with
          | none =>
            simp only [ho] at h
            have hst : st1 = st := (Except.ok.inj h).symm
            subst hst
            exact hi
          | some g =>
            cases hcur : st.current with
            | none =>
              simp only [ho, hcur] at h
              have hst : st1 = st := (Except.ok.inj h).symm
              subst hst
              exact hi
            | some cur =>
              cases hf1 : pyFloat? g.1 with
              | none =>
                simp only [ho, hcur, hf1] at h
                exact Except.noConfusion h
              | some x =>
                cases hf2 : pyFloat? g.2.1 with
                | none =>
                  simp only [ho, hcur, hf1, hf2] at h
                  exact Except.noConfusion h
                | some y =>
                  cases hf3 : pyFloat? g.2.2 with
                  | none =>
                    simp only [ho, hcur, hf1, hf2, hf3] at h
                    exact Except.noConfusion h
                  | some z =>
                    simp only [ho, hcur, hf1, hf2, hf3] at h
                    have hst : st1 = { st with
                        offsets := alSet st.offsets cur (x, y, z),
                        current := some cur } := (Except.ok.inj h).symm
                    subst hst
                    exact ParseInv_offsets hi rfl rfl rfl hcur.symm

theorem runLines_inv (lns : List String) (st st1 : ParseState)
    (h : runLines st lns = .ok st1) (hi : ParseInv st) : ParseInv st1 := by
  induction lns generalizing st with
  | nil => exact (Except.ok.inj h) ▸ hi
  | cons ln rest ih =>
    unfold runLines at h
    revert h
    cases hp : processLine st ln with
    | ok stm =>
      intro h
      exact ih stm h (processLine_inv st ln stm hp hi)
    | error e =>
      intro h
      cases h

theorem initState_inv : ParseInv initState := by
  refine ⟨?_, ?_, ?_, ?_⟩
  · intro n hn
    simp [initState] at hn
  · intro c hc
    simp [initState] at hc
  · intro p cs hm
    simp [initState] at hm
  · intro c
    simp [initState, countEdges]

/-- C2 (amended): whenever parsing succeeds and the returned `order` has no
duplicate names, every parent→child edge of `children` goes from an earlier
`order` entry to a strictly later one; consequently no joint name is its own
ancestor (the edge relation has no cycle through any `n`), and every name
occurs as a child of at most one parent.  (With duplicate names a joint can be
its own parent — see the counterexample — and `End Site` blocks can leave a
non-root name with no parent at all, so "exactly one parent" weakens to "at
most one".) -/
theorem claim2_acyclic_at_most_one_parent (lines : List String)
    (root : Option String) (ch : List (String × List String))
    (offs : List (String × (Frac × Frac × Frac))) (ord : List String)
    (h : parse_hierarchy lines = .ok (root, ch, offs, ord)) (hnd : ord.Nodup) :
    (∀ p c, childEdge ch p c → p ∈ ord ∧ c ∈ ord ∧ rankIn ord p < rankIn ord c) ∧
    (∀ n, ¬ Relation.TransGen (childEdge ch) n n) ∧
    (∀ c, countEdges ch c ≤ 1) := by
  unfold parse_hierarchy at h
  cases hr : runLines initState lines with
  | error e =>
    rw [hr] at h
    exact Except.noConfusion h
  | ok stf =>
    rw [hr] at h
    have h' : (stf.root_name, stf.children, stf.offsets, stf.order) =
        (root, ch, offs, ord) := Except.ok.inj h
    have hch : stf.children = ch := congrArg (fun t => t.2.1) h'
    have hord : stf.order = ord := congrArg (fun t => t.2.2.2) h'
    have hi := runLines_inv lines initState stf hr initState_inv
    rw [← hord] at hnd
    rw [← hch, ← hord]
    have hedge : ∀ p c, childEdge stf.children p c → Before stf.order p c := by
      rintro p c ⟨cs, hm, hc⟩
      exact hi.edge_before p cs hm c hc
    have hrank : ∀ p c, childEdge stf.children p c →
        p ∈ stf.order ∧ c ∈ stf.order ∧ rankIn stf.order p < rankIn stf.order c := by
      intro p c he
      have hb := hedge p c he
      have hm := Before_mem _ _ _ hb
      exact ⟨hm.1, hm.2, rankIn_lt_of_before _ _ _ hnd hb⟩
    refine ⟨hrank, ?_, ?_⟩
    · have hmono : ∀ a b, Relation.TransGen (childEdge stf.children) a b →
          rankIn stf.order a < rankIn stf.order b := by
        intro a b htg
        induction htg with
        | single h1 => exact (hrank _ _ h1).2.2
        | tail _ h1 ih => exact lt_trans ih (hrank _ _ h1).2.2
      exact fun n htg => lt_irrefl _ (hmono n n htg)
    · intro c
      exact le_trans (hi.edge_count c) (List.nodup_iff_count_le_one.mp hnd c)

/-- C2 witness: a two-joint header parses with distinct names; the theorem
yields forward-pointing edges, acyclicity and at-most-one-parent for it. -/
theorem claim2_witness :
    (∀ p c, childEdge [("R", ["A"])] p c → p ∈ ["R", "A"] ∧ c ∈ ["R", "A"] ∧
      rankIn ["R", "A"] p < rankIn ["R", "A"] c) ∧
    (∀ n, ¬ Relation.TransGen (childEdge [("R", ["A"])]) n n) ∧
    (∀ c, countEdges [("R", ["A"])] c ≤ 1) :=
  claim2_acyclic_at_most_one_parent ["ROOT R", "\x7b", "JOINT A", "\x7d", "\x7d"]
    (some "R") [("R", ["A"])] [] ["R", "A"] (by decide) (by decide)
